import Mathlib

/-!
Verification development for the `wordtool` repository.

The repository has two source files:
* `src/enumerate.py` — finds placeholder tokens `[PREFIX-XXX]` in a Word
  document (visible runs, table cells, header/footer paragraphs and the
  tracked-change overlay), sorts the collected matches by prefix with a
  stable sort, and rewrites each match in place with a sequentially
  numbered token `[PREFIX-NNN]`.
* `src/extract.py` — folds `(run text, comment)` pairs into an
  abbreviation table (`@`-comments) and a term table (`#`-comments).

Everything below is a shallow embedding of that Python code: strings are
`List Char`, the mutable document is threaded explicitly, Python
exceptions become explicit `Except` values / poison elements, and Python
dicts become association lists (insertion ordered, overwrite in place) or
total functions where only pointwise reads occur.
-/

namespace Wordtool

/-- Text is modelled as a list of characters. -/
abbrev Str := List Char

/-- The ASCII whitespace characters recognised by Python's `str.strip()`
(the source documents never contain the additional unicode whitespace, so
the ASCII set is the faithful fragment). -/
def isSpaceChar (c : Char) : Bool :=
  c = ' ' || c = '\t' || c = '\n' || c = '\r' || c = '\x0b' || c = '\x0c'

/-- Python `str.strip()`: drop whitespace from both ends. -/
def stripChars (s : Str) : Str :=
  ((s.dropWhile isSpaceChar).reverse.dropWhile isSpaceChar).reverse

/-- The regex character class `[A-Z]` (ASCII only, as in the source pattern). -/
def isUpperChar (c : Char) : Bool := 'A' ≤ c && c ≤ 'Z'

/-- The regex character class `[Xx]`. -/
def isXChar (c : Char) : Bool := c = 'X' || c = 'x'

/-- Greedy `[A-Z]+`-style scan: the maximal uppercase run at the head of
the string, together with the remainder. -/
def takeUpper : Str → Str × Str
  | [] => ([], [])
  | c :: cs =>
    if isUpperChar c then
      let (u, r) := takeUpper cs
      (c :: u, r)
    else ([], c :: cs)

/-- One regex match of the default pattern `\[([A-Z]+)-[Xx][Xx][Xx]\]`:
captured group 1, the whole matched text, and `start()`/`end()` offsets
inside the scanned span text. -/
structure RawTok where
  pfx : Str
  whole : Str
  tstart : Nat
  tstop : Nat
deriving DecidableEq, Repr

/-- Attempt to match the default pattern `\[([A-Z]+)-[Xx][Xx][Xx]\]` at the
head of `s`; returns the captured group and the length of the whole match.
Because `-` is not in `[A-Z]`, the greedy `[A-Z]+` can only succeed with the
maximal uppercase run, so no backtracking alternatives exist. -/
def matchToken : Str → Option (Str × Nat)
  | [] => none
  | c :: rest =>
    if c = '[' then
      let ur := takeUpper rest
      if ur.1 = [] then none
      else
        match ur.2 with
        | d :: x1 :: x2 :: x3 :: rb :: _ =>
          if d = '-' && isXChar x1 && isXChar x2 && isXChar x3 && rb = ']' then
            some (ur.1, ur.1.length + 6)
          else none
        | _ => none
    else none

/-- `re.finditer(pattern, text)`: scan left to right, emitting non-overlapping
matches; on a match resume after its end, otherwise advance one character.
`pos` is the offset of the head of the remaining text.  The scan is written
structurally — `skip` counts characters still to be consumed before the next
match attempt (resuming after a match of length `len` skips its remaining
`len - 1` characters one at a time). -/
def findAux : Str → Nat → Nat → List RawTok
  | [], _, _ => []
  | _ :: cs, skip + 1, pos => findAux cs skip (pos + 1)
  | c :: cs, 0, pos =>
    match matchToken (c :: cs) with
    | some (u, len) => ⟨u, (c :: cs).take len, pos, pos + len⟩ :: findAux cs (len - 1) (pos + 1)
    | none => findAux cs 0 (pos + 1)

/-- All matches of the default pattern in a span text. -/
def findMatches (s : Str) : List RawTok := findAux s 0 0

/-- The decimal digit character for `n < 10`. -/
def digitChar (n : Nat) : Char := Char.ofNat (48 + n)

/-- The decimal digit string of `n`, computed with structural fuel
(`fuel ≥ 1 + log10 n` suffices; the fuel-exhausted branch is unreachable
at the call below). -/
def natDigitsAux : Nat → Nat → Str
  | 0, _ => []
  | fuel + 1, n => if n < 10 then [digitChar n] else natDigitsAux fuel (n / 10) ++ [digitChar (n % 10)]

/-- The decimal digit string of `n` (no sign, no padding). -/
def natDigits (n : Nat) : Str := natDigitsAux (n + 1) n

/-- Python `f'{n:03d}'`: zero-pad to width 3, silently wider beyond 999. -/
def pad3 (n : Nat) : Str := List.replicate (3 - (natDigits n).length) '0' ++ natDigits n

/-- Python `f'[{prefix}-{number:03d}]'`: the generated replacement text. -/
def fmtToken (p : Str) (n : Nat) : Str := '[' :: (p ++ '-' :: (pad3 n ++ [']']))

/-- A leaf `w:t` element of the tracked-change overlay: either a text-bearing
element, or a poison value whose traversal raises (making the `except`
control flow of the source explicit). -/
inductive WtElem where
  | good (t : Str)
  | bad
deriving DecidableEq, Repr

/-- A `w:ins`/`w:del` group: its `.//w:t` leaves in document order. -/
abbrev XmlGroup := List WtElem

instance instDecEqExcept {ε α : Type} [DecidableEq ε] [DecidableEq α] :
    DecidableEq (Except ε α) := fun x y =>
  match x, y with
  | Except.error a, Except.error b =>
    if h : a = b then isTrue (by rw [h]) else isFalse (by simp [h])
  | Except.ok a, Except.ok b =>
    if h : a = b then isTrue (by rw [h]) else isFalse (by simp [h])
  | Except.error _, Except.ok _ => isFalse (by simp)
  | Except.ok _, Except.error _ => isFalse (by simp)

/-- A paragraph-like region: visible run texts plus the tracked-change
overlay.  `ins`/`del` are the results of `findall('.//w:ins')` and
`findall('.//w:del')`; `Except.error` models that lookup itself raising. -/
structure Region where
  runs : List Str
  ins : Except Unit (List XmlGroup)
  del : Except Unit (List XmlGroup)
deriving DecidableEq, Repr

/-- Where a collected match lives inside its region: a visible run, or the
`i`-th `w:t` of the `g`-th insertion/deletion group. -/
inductive SpanRef where
  | run (i : Nat)
  | ins (g i : Nat)
  | del (g i : Nat)
deriving DecidableEq, Repr

/-- One element of the `(prefix, original_text, location_info)` tuples built
by the collectors, with the Python paragraph/run object identities replaced
by their traversal addresses. -/
structure PatMatch where
  pfx : Str
  whole : Str
  region : Nat
  ref : SpanRef
  tstart : Nat
  tstop : Nat
deriving DecidableEq, Repr

/-- Visible-run part of `_collect_paragraph_patterns`: skip runs whose
stripped text is empty, scan each remaining run's own text. -/
def collectRunsAux (pfxs : List Str) (ri : Nat) : Nat → List Str → List PatMatch
  | _, [] => []
  | i, t :: ts =>
    (if stripChars t = [] then [] else
      (findMatches t).filterMap fun tok =>
        if pfxs.contains tok.pfx then
          some ⟨tok.pfx, tok.whole, ri, SpanRef.run i, tok.tstart, tok.tstop⟩
        else none)
    ++ collectRunsAux pfxs ri (i + 1) ts

/-- `_collect_xml_element_patterns` over one group's `w:t` leaves: elements
with empty text are skipped (`if not text: continue`); a raising element
aborts the loop and the surrounding `except` keeps the matches already
appended. -/
def collectGroupAux (pfxs : List Str) (ri g : Nat) (mk : Nat → Nat → SpanRef) :
    Nat → List WtElem → List PatMatch
  | _, [] => []
  | _, WtElem.bad :: _ => []
  | i, WtElem.good t :: rest =>
    (if t = [] then [] else
      (findMatches t).filterMap fun tok =>
        if pfxs.contains tok.pfx then
          some ⟨tok.pfx, tok.whole, ri, mk g i, tok.tstart, tok.tstop⟩
        else none)
    ++ collectGroupAux pfxs ri g mk (i + 1) rest

/-- The `for ins_elem in p_element.findall(...)` loops over groups. -/
def collectGroupsAux (pfxs : List Str) (ri : Nat) (mk : Nat → Nat → SpanRef) :
    Nat → List XmlGroup → List PatMatch
  | _, [] => []
  | g, grp :: rest => collectGroupAux pfxs ri g mk 0 grp ++ collectGroupsAux pfxs ri mk (g + 1) rest

/-- `_collect_xml_patterns`: process `w:ins` groups then `w:del` groups;
an exception while obtaining either group list aborts the whole `try` block
(`except Exception: pass`), keeping whatever was already collected. -/
def collect_xml_patterns (ri : Nat) (reg : Region) (pfxs : List Str) : List PatMatch :=
  match reg.ins with
  | Except.error _ => []
  | Except.ok insGs =>
    let a := collectGroupsAux pfxs ri SpanRef.ins 0 insGs
    match reg.del with
    | Except.error _ => a
    | Except.ok delGs => a ++ collectGroupsAux pfxs ri SpanRef.del 0 delGs

/-- `_collect_paragraph_patterns`: on an empty run list the function returns
immediately (so the overlay is not scanned); otherwise visible-run matches
are collected first, then the tracked-change overlay matches. -/
def collect_paragraph_patterns (ri : Nat) (reg : Region) (pfxs : List Str) : List PatMatch :=
  if reg.runs = [] then []
  else collectRunsAux pfxs ri 0 reg.runs ++ collect_xml_patterns ri reg pfxs

/-- A table: `table.rows`, each `row.cells`, each `cell.paragraphs`. -/
abbrev Table := List (List (List Region))

/-- A document section: optional header and footer paragraph lists. -/
structure Sect where
  header : Option (List Region)
  footer : Option (List Region)
deriving Repr

/-- The structured document handed to `find_and_replace_patterns`. -/
structure DocModel where
  paragraphs : List Region
  tables : List Table
  sections : List Sect
deriving Repr

/-- The document-traversal order of `_collect_all_patterns`: body
paragraphs, then every table's rows × cells × paragraphs, then for each
section the header paragraphs and the footer paragraphs. -/
def allRegions (doc : DocModel) : List Region :=
  doc.paragraphs
    ++ doc.tables.flatMap (fun t => t.flatMap (fun row => row.flatMap id))
    ++ doc.sections.flatMap (fun s => s.header.getD [] ++ s.footer.getD [])

/-- The collection loops of `_collect_all_patterns`, indexed by traversal
position. -/
def collectRegions (pfxs : List Str) : Nat → List Region → List PatMatch
  | _, [] => []
  | i, r :: rs => collect_paragraph_patterns i r pfxs ++ collectRegions pfxs (i + 1) rs

/-- Python string `<=` (lexicographic on code points), the comparison behind
`all_matches.sort(key=lambda x: x[0])`. -/
def strLeB : Str → Str → Bool
  | [], _ => true
  | _ :: _, [] => false
  | a :: as, b :: bs => if a < b then true else if a = b then strLeB as bs else false

/-- The sort order of `all_matches.sort(key=lambda x: x[0])`: by prefix only. -/
def matchLe (m1 m2 : PatMatch) : Bool := strLeB m1.pfx m2.pfx

/-- Stable insertion under `le`: the new element is placed before the first
existing element it compares `le` to, hence after all earlier-inserted
elements with an equal key. -/
def insLe (le : α → α → Bool) (a : α) : List α → List α
  | [] => [a]
  | b :: bs => if le a b then a :: b :: bs else b :: insLe le a bs

/-- Stable sort under `le` (insertion sort).  Python's `list.sort` is a
stable sort; any two stable sorts under the same key agree, and the
stability, permutation and sortedness lemmas proved below pin this
implementation to exactly that behaviour. -/
def isortLe (le : α → α → Bool) : List α → List α
  | [] => []
  | a :: as => insLe le a (isortLe le as)

/-- `_collect_all_patterns`: traverse the whole document, then stable-sort
the match list by prefix only. -/
def collect_all_patterns (doc : DocModel) (pfxs : List Str) : List PatMatch :=
  isortLe matchLe (collectRegions pfxs 0 (allRegions doc))

/-- Replace the `i`-th element of a list by `f` of itself (in-place mutation
of one object held in a Python list). -/
def modifyAt : List α → Nat → (α → α) → List α
  | [], _, _ => []
  | a :: as, 0, f => f a :: as
  | a :: as, n + 1, f => a :: modifyAt as n f

/-- Reading `element.text` of an overlay leaf. -/
def wtText : WtElem → Option Str
  | WtElem.good t => some t
  | WtElem.bad => none

/-- Reading the `w:t` leaf at `(g, i)` of a group list. -/
def getWt (egs : Except Unit (List XmlGroup)) (g i : Nat) : Option Str :=
  match egs.toOption with
  | none => none
  | some gs =>
    match gs[g]? with
    | none => none
    | some grp =>
      match grp[i]? with
      | none => none
      | some e => wtText e

/-- Reading `element.text` for a span reference, over the flattened region
list. -/
def getSpanText (store : List Region) (ri : Nat) (ref : SpanRef) : Option Str :=
  match store[ri]? with
  | none => none
  | some reg =>
    match ref with
    | SpanRef.run i => reg.runs[i]?
    | SpanRef.ins g i => getWt reg.ins g i
    | SpanRef.del g i => getWt reg.del g i

/-- Writing `element.text` of an overlay leaf. -/
def modifyWt (f : Str → Str) : WtElem → WtElem
  | WtElem.good t => WtElem.good (f t)
  | WtElem.bad => WtElem.bad

/-- Writing `element.text = f(element.text)` at a span reference. -/
def modifySpanText (store : List Region) (ri : Nat) (ref : SpanRef) (f : Str → Str) :
    List Region :=
  modifyAt store ri fun reg =>
    match ref with
    | SpanRef.run i => { reg with runs := modifyAt reg.runs i f }
    | SpanRef.ins g i =>
        { reg with ins := reg.ins.map fun gs => modifyAt gs g fun grp => modifyAt grp i (modifyWt f) }
    | SpanRef.del g i =>
        { reg with del := reg.del.map fun gs => modifyAt gs g fun grp => modifyAt grp i (modifyWt f) }

/-- `text[:start] + replacement + text[end:]`. -/
def splice (t : Str) (s e : Nat) (r : Str) : Str := t.take s ++ r ++ t.drop e

/-- `_process_all_patterns`: walk the sorted match list once; generate the
next number for the match's prefix, append the generated text to the
`replacements` record, and splice it into the referenced span at the offsets
recorded at collection time (both branches of the `hasattr(element, 'text')`
test perform the same splice).  The `counters` and `replacements` dicts are
read and written pointwise only, so they are modelled as total functions.
The returned trace lists each performed `(match, generated text)` rewrite in
processing order — it is a ghost observation of the loop body, used to state
properties of the pass. -/
def process_all_patterns :
    List Region → List PatMatch → (Str → Nat) → (Str → List Str) →
    List Region × (Str → Nat) × (Str → List Str) × List (PatMatch × Str)
  | store, [], counters, repls => (store, counters, repls, [])
  | store, m :: ms, counters, repls =>
    let number := counters m.pfx
    let replacement := fmtToken m.pfx number
    let counters' := fun p => if p = m.pfx then number + 1 else counters p
    let repls' := fun p => if p = m.pfx then repls p ++ [replacement] else repls p
    let store' := modifySpanText store m.region m.ref fun t => splice t m.tstart m.tstop replacement
    let out := process_all_patterns store' ms counters' repls'
    (out.1, out.2.1, out.2.2.1, (m, replacement) :: out.2.2.2)

/-- `find_and_replace_patterns` with the document I/O elided: collect all
matches, then process them with every counter starting at 1 and every
replacement list empty. -/
def find_and_replace_patterns (doc : DocModel) (pfxs : List Str) :
    List Region × (Str → Nat) × (Str → List Str) × List (PatMatch × Str) :=
  process_all_patterns (allRegions doc) (collect_all_patterns doc pfxs) (fun _ => 1) (fun _ => [])

/-- A paragraph with no tracked changes. -/
def mkPara (runs : List Str) : Region := ⟨runs, Except.ok [], Except.ok []⟩

/-- The default recognised prefix list `['REQ', 'SYS']`. -/
def pfxs0 : List Str := ["REQ".data, "SYS".data]

/-! ### The robust single-pass rewriter (`_replace_in_runs` / `_replace_across_runs`) -/

/-- Does `hay` start with `needle`? -/
def startsWith : Str → Str → Bool
  | _, [] => true
  | [], _ :: _ => false
  | h :: hs, n :: ns => h = n && startsWith hs ns

/-- Python `hay.find(needle)`: index of the leftmost occurrence. -/
def strFind (hay needle : Str) : Option Nat :=
  match hay with
  | [] => if needle = [] then some 0 else none
  | c :: t => if startsWith (c :: t) needle then some 0 else (strFind t needle).map (· + 1)

/-- Python `needle in hay`. -/
def containsSub (hay needle : Str) : Bool := (strFind hay needle).isSome

/-- `paragraph.text`: the concatenation of the run texts. -/
def joinStr (runs : List Str) : Str := runs.flatMap id

/-- `_replace_across_runs`: look the matched text up in the full paragraph
text; when absent, return unchanged; otherwise clear all runs and re-add
the text before the match (only when non-empty), the replacement, and the
text after the match (only when non-empty). -/
def replace_across_runs (runs : List Str) (old new : Str) : List Str :=
  let full := joinStr runs
  match strFind full old with
  | none => runs
  | some s =>
    let before := full.take s
    let after := full.drop (s + old.length)
    (if before = [] then [] else [before]) ++ [new] ++ (if after = [] then [] else [after])

/-- `_replace_in_runs`: replace inside the first run containing the text in
one piece; when no single run contains it, fall back to
`_replace_across_runs`.  On an empty run list the function returns without
change. -/
def replace_in_runs (runs : List Str) (old new : Str) : List Str :=
  if runs = [] then runs
  else
    match runs.findIdx? (fun r => containsSub r old) with
    | some i =>
      let r := runs.getD i []
      match strFind r old with
      | some s => runs.set i (splice r s (s + old.length) new)
      | none => runs
    | none => replace_across_runs runs old new

/-- `_replace_in_runs` applied to paragraph `k` of a document: only that one
paragraph object is mutated. -/
def replaceInDocAt (doc : List (List Str)) (k : Nat) (old new : Str) : List (List Str) :=
  modifyAt doc k (fun runs => replace_in_runs runs old new)

/-! ### The reducer (`extract.py`) -/

/-- A run as seen by `extract_abbreviations`: its text and the texts of its
attached comments. -/
structure XRun where
  text : Str
  comments : List Str
deriving DecidableEq, Repr

/-- Python dict assignment `d[k] = v`: insertion ordered, a repeated key
keeps its original position and gets the new value. -/
def dictSet : List (Str × Str) → Str → Str → List (Str × Str)
  | [], k, v => [(k, v)]
  | (k', v') :: rest, k, v => if k' = k then (k, v) :: rest else (k', v') :: dictSet rest k v

/-- The reducer's mutable state: the two dicts and the `prev_run_text`
anchor. -/
structure RState where
  abbrs : List (Str × Str)
  terms : List (Str × Str)
  prev : Str
deriving DecidableEq, Repr

/-- Python `s.split(':', 1)` when it yields two parts; `none` when `s` has
no `:` (where `[term, definition] = ...` raises). -/
def splitOnceColon : Str → Option (Str × Str)
  | [] => none
  | c :: cs =>
    if c = ':' then some ([], cs)
    else match splitOnceColon cs with
      | some (a, b) => some (c :: a, b)
      | none => none

/-- One comment of the loop body: a stripped comment starting `@` records
`abbreviations[prev_run_text] = comment_text[1:]`; one starting `#` splits
the remainder once on `:` and records the term with stripped definition; a
missing separator raises, carrying the state mutated so far. -/
def procComment (st : RState) (c : Str) : Except RState RState :=
  let ct := stripChars c
  let st1 :=
    if ct.head? = some '@' then { st with abbrs := dictSet st.abbrs st.prev (ct.drop 1) }
    else st
  if ct.head? = some '#' then
    match splitOnceColon (ct.drop 1) with
    | some (term, defn) => Except.ok { st1 with terms := dictSet st1.terms term (stripChars defn) }
    | none => Except.error st1
  else Except.ok st1

/-- The `for comment in run.comments` loop; an exception aborts it. -/
def procComments : RState → List Str → Except RState RState
  | st, [] => Except.ok st
  | st, c :: cs =>
    match procComment st c with
    | Except.ok st' => procComments st' cs
    | Except.error st' => Except.error st'

/-- One run: non-empty text updates the anchor (`prev_run_text = run.text.strip()`,
also when the stripped text is empty), then the run's comments are processed. -/
def procRun (st : RState) (r : XRun) : Except RState RState :=
  let st1 := if r.text = [] then st else { st with prev := stripChars r.text }
  procComments st1 r.comments

/-- The `for run in paragraph.runs` loop; an exception aborts it. -/
def procRuns : RState → List XRun → Except RState RState
  | st, [] => Except.ok st
  | st, r :: rs =>
    match procRun st r with
    | Except.ok st' => procRuns st' rs
    | Except.error st' => Except.error st'

/-- One paragraph: the per-paragraph `try`/`except` swallows the error and
keeps the state mutated before it (the dicts are mutated in place). -/
def procParagraph (st : RState) (runs : List XRun) : RState :=
  match procRuns st runs with
  | Except.ok st' => st'
  | Except.error st' => st'

/-- The `for paragraph in doc.paragraphs` loop of `extract_abbreviations`. -/
def extractGo : RState → List (List XRun) → RState
  | st, [] => st
  | st, p :: ps => extractGo (procParagraph st p) ps

/-- `extract_abbreviations` (document I/O and table emission elided): fold
all paragraphs from the empty state and return the two dicts. -/
def extract_abbreviations (paras : List (List XRun)) :
    List (Str × Str) × List (Str × Str) :=
  let st := extractGo ⟨[], [], []⟩ paras
  (st.abbrs, st.terms)

/-! ### Derived notions used to state the claims -/

/-- Specification-side definition (not from the source): the expected
numbering of the matches of one prefix — pair the `j`-th match (0-based)
with the generated text for number `k + j`.  `numberWith P 1 ms` pairs
consecutive numbers starting at 1, with no gaps and no repeats, in the
order of `ms`. -/
def numberWith (P : Str) : Nat → List PatMatch → List (PatMatch × Str)
  | _, [] => []
  | k, m :: ms => (m, fmtToken P k) :: numberWith P (k + 1) ms

/-- Does traversing this overlay leaf raise? -/
def isBadElem : WtElem → Bool
  | WtElem.bad => true
  | WtElem.good _ => false

/-- Does any exception occur while traversing the region's overlay? -/
def overlayRaises (reg : Region) : Bool :=
  (match reg.ins with
   | Except.error _ => true
   | Except.ok gs => gs.any (fun g => g.any isBadElem)) ||
  (match reg.del with
   | Except.error _ => true
   | Except.ok gs => gs.any (fun g => g.any isBadElem))

/-- A failure-free overlay: both lookups succeed and no leaf raises. -/
def overlayClean (reg : Region) : Prop :=
  ∃ gi gd, reg.ins = Except.ok gi ∧ reg.del = Except.ok gd ∧
    (∀ g ∈ gi, ∀ e ∈ g, e ≠ WtElem.bad) ∧ (∀ g ∈ gd, ∀ e ∈ g, e ≠ WtElem.bad)

/-- A group truncated at its first raising leaf. -/
def truncGroup : XmlGroup → XmlGroup
  | [] => []
  | WtElem.bad :: _ => []
  | WtElem.good t :: rest => WtElem.good t :: truncGroup rest

/-- Does processing this comment raise in the reducer (a stripped
`#`-comment whose remainder has no `:` separator)? -/
def commentRaises (c : Str) : Bool :=
  (stripChars c).head? == some '#' && (splitOnceColon ((stripChars c).drop 1)).isNone

/-- A paragraph holding the single run `[REQ-XXX]`. -/
def reqPara : Region := mkPara ["[REQ-XXX]".data]

/-- A paragraph holding one run with two recognised matches. -/
def dblPara : Region := mkPara ["[REQ-XXX][REQ-XXX]".data]

/-- A document with 999 single-match paragraphs followed by one paragraph
whose single span contains two matches: the two final matches receive the
numbers 1000 and 1001, whose generated texts are wider than the matched
text, so the second splice at the stale offsets corrupts the span. -/
def doc2 : DocModel := ⟨List.replicate 999 reqPara ++ [dblPara], [], []⟩

/-- The match collected from `reqPara` at traversal position `i`. -/
def singleReqMatch (i : Nat) : PatMatch :=
  ⟨"REQ".data, "[REQ-XXX]".data, i, SpanRef.run 0, 0, 9⟩

/-- The matches collected from `n` consecutive copies of `reqPara` starting
at traversal position `k`. -/
def seqMatches : Nat → Nat → List PatMatch
  | _, 0 => []
  | k, n + 1 => singleReqMatch k :: seqMatches (k + 1) n

/-- A span mixing an unrecognised-prefix token with a recognised one. -/
def mixedPara : Region := mkPara ["[FOO-XXX][REQ-XXX]".data]

/-- A document whose only span holds `[FOO-XXX][REQ-XXX]`. -/
def doc9 : DocModel := ⟨[mixedPara], [], []⟩

/-- A region whose overlay collects one match and then raises. -/
def badReg : Region :=
  ⟨["x".data], Except.ok [[WtElem.good "[REQ-XXX]".data, WtElem.bad]], Except.ok []⟩

example : findMatches "[REQ-XXX]".data = [⟨"REQ".data, "[REQ-XXX]".data, 0, 9⟩] := by decide
example : findMatches "a[REQ-xXx]b[SYS-XXX]".data =
    [⟨"REQ".data, "[REQ-xXx]".data, 1, 10⟩, ⟨"SYS".data, "[SYS-XXX]".data, 11, 20⟩] := by decide
example : findMatches "[REQ-XXXX]".data = [] := by decide
example : findMatches "[[REQ-XXX]".data = [⟨"REQ".data, "[REQ-XXX]".data, 1, 10⟩] := by decide
example : findMatches "[req-XXX]".data = [] := by decide
example : fmtToken "REQ".data 7 = "[REQ-007]".data := by decide
example : fmtToken "REQ".data 1000 = "[REQ-1000]".data := by decide
example : stripChars "  a b\t".data = "a b".data := by decide

example :
    collect_all_patterns ⟨[mkPara ["a[SYS-XXX]".data, "[REQ-XXX]b".data]], [], []⟩ pfxs0 =
      [⟨"REQ".data, "[REQ-XXX]".data, 0, SpanRef.run 1, 0, 9⟩,
       ⟨"SYS".data, "[SYS-XXX]".data, 0, SpanRef.run 0, 1, 10⟩] := by decide

example :
    (find_and_replace_patterns ⟨[mkPara ["a[SYS-XXX]".data, "[REQ-XXX]b".data]], [], []⟩ pfxs0).1 =
      [⟨["a[SYS-001]".data, "[REQ-001]b".data], Except.ok [], Except.ok []⟩] := by decide

example :
    collect_xml_patterns 3 ⟨["x".data], Except.ok [[WtElem.good "[REQ-XXX]".data, WtElem.bad, WtElem.good "[SYS-XXX]".data]], Except.error ()⟩ pfxs0 =
      [⟨"REQ".data, "[REQ-XXX]".data, 3, SpanRef.ins 0 0, 0, 9⟩] := by decide

example :
    replace_across_runs ["ab[RE".data, "Q-XXX]cd".data] "[REQ-XXX]".data "[REQ-001]".data =
      ["ab".data, "[REQ-001]".data, "cd".data] := by decide

example :
    replace_across_runs ["[REQ-".data, "XXX]".data] "[REQ-XXX]".data "[REQ-001]".data =
      ["[REQ-001]".data] := by decide

example :
    replace_in_runs ["x[REQ-XXX]y".data, "z".data] "[REQ-XXX]".data "[REQ-001]".data =
      ["x[REQ-001]y".data, "z".data] := by decide

example :
    extract_abbreviations
        [[⟨"Req1".data, []⟩, ⟨"".data, ["@REQ".data]⟩, ⟨"X".data, ["#Term: means X".data]⟩]] =
      ([("Req1".data, "REQ".data)], [("Term".data, "means X".data)]) := by decide

example :
    extract_abbreviations [[⟨"a".data, ["#oops".data, "@Z".data]⟩, ⟨"b".data, ["@Y".data]⟩], [⟨"c".data, ["@W".data]⟩]] =
      ([("c".data, "W".data)], []) := by decide

/-! ## Lemmas: the stable sort -/

theorem strLeB_refl (s : Str) : strLeB s s = true := by
  induction s with
  | nil => rfl
  | cons a as ih => simp [strLeB, ih]

theorem strLeB_cons_iff {x y : Char} {xs ys : Str} :
    strLeB (x :: xs) (y :: ys) = true ↔ x < y ∨ (x = y ∧ strLeB xs ys = true) := by
  simp only [strLeB]
  by_cases h1 : x < y
  · simp [h1]
  · by_cases h2 : x = y
    · simp [h1, h2]
    · simp [h1, h2]

theorem strLeB_total (a b : Str) : strLeB a b = true ∨ strLeB b a = true := by
  induction a generalizing b with
  | nil => left; rfl
  | cons c cs ih =>
    cases b with
    | nil => right; rfl
    | cons d ds =>
      rcases lt_trichotomy c d with h | h | h
      · exact Or.inl (strLeB_cons_iff.mpr (Or.inl h))
      · subst h
        rcases ih ds with h' | h'
        · exact Or.inl (strLeB_cons_iff.mpr (Or.inr ⟨rfl, h'⟩))
        · exact Or.inr (strLeB_cons_iff.mpr (Or.inr ⟨rfl, h'⟩))
      · exact Or.inr (strLeB_cons_iff.mpr (Or.inl h))

theorem strLeB_trans {a b c : Str} (h1 : strLeB a b = true) (h2 : strLeB b c = true) :
    strLeB a c = true := by
  induction a generalizing b c with
  | nil => rfl
  | cons x xs ih =>
    cases b with
    | nil => simp [strLeB] at h1
    | cons y ys =>
      cases c with
      | nil => simp [strLeB] at h2
      | cons z zs =>
        rcases strLeB_cons_iff.mp h1 with hxy | ⟨hxy, hr1⟩
        · rcases strLeB_cons_iff.mp h2 with hyz | ⟨hyz, hr2⟩
          · exact strLeB_cons_iff.mpr (Or.inl (lt_trans hxy hyz))
          · exact strLeB_cons_iff.mpr (Or.inl (hyz ▸ hxy))
        · subst hxy
          rcases strLeB_cons_iff.mp h2 with hyz | ⟨hyz, hr2⟩
          · exact strLeB_cons_iff.mpr (Or.inl hyz)
          · exact strLeB_cons_iff.mpr (Or.inr ⟨hyz, ih hr1 hr2⟩)

theorem insLe_eq_cons_of_le {le : α → α → Bool} {a b : α} {bs : List α}
    (h : le a b = true) : insLe le a (b :: bs) = a :: b :: bs := by
  simp [insLe, h]

theorem insLe_eq_skip_of_not_le {le : α → α → Bool} {a b : α} {bs : List α}
    (h : ¬le a b = true) : insLe le a (b :: bs) = b :: insLe le a bs := by
  simp [insLe, h]

theorem insLe_perm (le : α → α → Bool) (a : α) (s : List α) :
    List.Perm (insLe le a s) (a :: s) := by
  induction s with
  | nil => exact List.Perm.refl _
  | cons b bs ih =>
    by_cases h : le a b = true
    · rw [insLe_eq_cons_of_le h]
    · rw [insLe_eq_skip_of_not_le h]
      exact (ih.cons b).trans (List.Perm.swap a b bs)

theorem isortLe_perm (le : α → α → Bool) (l : List α) : List.Perm (isortLe le l) l := by
  induction l with
  | nil => exact List.Perm.refl _
  | cons a as ih => exact (insLe_perm le a (isortLe le as)).trans (ih.cons a)

theorem mem_isortLe {le : α → α → Bool} {l : List α} {a : α} :
    a ∈ isortLe le l ↔ a ∈ l := (isortLe_perm le l).mem_iff

theorem filter_insLe (p : α → Bool) (le : α → α → Bool) (a : α) (s : List α)
    (htie : ∀ x y, p x = true → p y = true → le x y = true) :
    (insLe le a s).filter p = if p a then a :: s.filter p else s.filter p := by
  induction s with
  | nil => by_cases hpa : p a = true <;> simp [insLe, List.filter, hpa]
  | cons b bs ih =>
    by_cases hab : le a b = true
    · rw [insLe_eq_cons_of_le hab]
      by_cases hpa : p a = true <;> simp [List.filter_cons, hpa]
    · rw [insLe_eq_skip_of_not_le hab]
      by_cases hpb : p b = true
      · have hpa : ¬p a = true := fun hpa => hab (htie a b hpa hpb)
        simp [List.filter_cons, hpb, hpa, ih]
      · simp [List.filter_cons, hpb, ih]

theorem filter_isortLe (p : α → Bool) (le : α → α → Bool) (l : List α)
    (htie : ∀ x y, p x = true → p y = true → le x y = true) :
    (isortLe le l).filter p = l.filter p := by
  induction l with
  | nil => rfl
  | cons a as ih =>
    rw [isortLe, filter_insLe p le a _ htie, ih]
    by_cases hpa : p a = true <;> simp [List.filter_cons, hpa]

theorem pairwise_insLe {le : α → α → Bool}
    (total : ∀ x y, le x y = true ∨ le y x = true)
    (htrans : ∀ {x y z}, le x y = true → le y z = true → le x z = true)
    (a : α) {s : List α} (hs : s.Pairwise (fun x y => le x y = true)) :
    (insLe le a s).Pairwise (fun x y => le x y = true) := by
  induction s with
  | nil => simp [insLe]
  | cons b bs ih =>
    rcases List.pairwise_cons.mp hs with ⟨hb, hbs⟩
    by_cases hab : le a b = true
    · rw [insLe_eq_cons_of_le hab]
      refine List.pairwise_cons.mpr ⟨?_, hs⟩
      intro x hx
      rcases List.mem_cons.mp hx with rfl | hx
      · exact hab
      · exact htrans hab (hb x hx)
    · have hba : le b a = true := (total a b).resolve_left hab
      rw [insLe_eq_skip_of_not_le hab]
      refine List.pairwise_cons.mpr ⟨?_, ih hbs⟩
      intro x hx
      rcases List.mem_cons.mp ((insLe_perm le a bs).mem_iff.mp hx) with rfl | hx
      · exact hba
      · exact hb x hx

theorem pairwise_isortLe {le : α → α → Bool}
    (total : ∀ x y, le x y = true ∨ le y x = true)
    (htrans : ∀ {x y z}, le x y = true → le y z = true → le x z = true)
    (l : List α) : (isortLe le l).Pairwise (fun x y => le x y = true) := by
  induction l with
  | nil => exact List.Pairwise.nil
  | cons a as ih => exact pairwise_insLe total htrans a ih

theorem isortLe_of_const_pfx (P : Str) (l : List PatMatch)
    (h : ∀ m ∈ l, m.pfx = P) : isortLe matchLe l = l := by
  induction l with
  | nil => rfl
  | cons a as ih =>
    have has : ∀ m ∈ as, m.pfx = P := fun m hm => h m (List.mem_cons_of_mem a hm)
    rw [isortLe, ih has]
    cases as with
    | nil => rfl
    | cons b bs =>
      have hab : matchLe a b = true := by
        rw [matchLe, h a (List.mem_cons_self a _), h b (by simp)]
        exact strLeB_refl P
      rw [insLe_eq_cons_of_le hab]

/-! ## Lemmas: list surgery -/

theorem modifyAt_get_same (l : List α) (i : Nat) (f : α → α) :
    (modifyAt l i f)[i]? = l[i]?.map f := by
  induction l generalizing i with
  | nil => simp [modifyAt]
  | cons a as ih =>
    cases i with
    | zero => simp [modifyAt]
    | succ n => simpa [modifyAt] using ih n

theorem modifyAt_get_ne (l : List α) {i j : Nat} (f : α → α) (h : j ≠ i) :
    (modifyAt l i f)[j]? = l[j]? := by
  induction l generalizing i j with
  | nil => simp [modifyAt]
  | cons a as ih =>
    cases i with
    | zero =>
      cases j with
      | zero => exact absurd rfl h
      | succ m => simp [modifyAt]
    | succ n =>
      cases j with
      | zero => simp [modifyAt]
      | succ m => simpa [modifyAt] using ih (fun hh => h (by omega))

theorem toOption_map {ε α β : Type} (f : α → β) (e : Except ε α) :
    (e.map f).toOption = e.toOption.map f := by
  cases e <;> rfl

theorem wtText_modifyWt (f : Str → Str) (e : WtElem) :
    wtText (modifyWt f e) = (wtText e).map f := by
  cases e <;> rfl

theorem getWt_modify_same (egs : Except Unit (List XmlGroup)) (g i : Nat) (f : Str → Str) :
    getWt (egs.map fun gs => modifyAt gs g fun grp => modifyAt grp i (modifyWt f)) g i
      = (getWt egs g i).map f := by
  unfold getWt
  rw [toOption_map]
  cases egs.toOption with
  | none => rfl
  | some gs =>
    simp only [Option.map_some']
    rw [modifyAt_get_same]
    cases gs[g]? with
    | none => rfl
    | some grp =>
      simp only [Option.map_some']
      rw [modifyAt_get_same]
      cases grp[i]? with
      | none => rfl
      | some e => simp [wtText_modifyWt]

theorem getWt_modify_ne (egs : Except Unit (List XmlGroup)) {g i g' i' : Nat} (f : Str → Str)
    (h : ¬(g = g' ∧ i = i')) :
    getWt (egs.map fun gs => modifyAt gs g' fun grp => modifyAt grp i' (modifyWt f)) g i
      = getWt egs g i := by
  unfold getWt
  rw [toOption_map]
  cases egs.toOption with
  | none => rfl
  | some gs =>
    simp only [Option.map_some']
    by_cases hg : g = g'
    · subst hg
      have hii : i ≠ i' := fun he => h ⟨rfl, he⟩
      rw [modifyAt_get_same]
      cases gs[g]? with
      | none => rfl
      | some grp =>
        simp only [Option.map_some']
        rw [modifyAt_get_ne _ _ hii]
    · rw [modifyAt_get_ne _ _ hg]

theorem getSpanText_modify_same (store : List Region) (ri : Nat) (ref : SpanRef) (f : Str → Str) :
    getSpanText (modifySpanText store ri ref f) ri ref = (getSpanText store ri ref).map f := by
  unfold getSpanText modifySpanText
  rw [modifyAt_get_same]
  cases store[ri]? with
  | none => rfl
  | some reg =>
    simp only [Option.map_some']
    cases ref with
    | run i => simpa using modifyAt_get_same reg.runs i f
    | ins g i => exact getWt_modify_same reg.ins g i f
    | del g i => exact getWt_modify_same reg.del g i f

theorem getSpanText_modify_ne (store : List Region) {ri ri' : Nat} {ref ref' : SpanRef}
    (f : Str → Str) (h : ¬(ri = ri' ∧ ref = ref')) :
    getSpanText (modifySpanText store ri' ref' f) ri ref = getSpanText store ri ref := by
  unfold getSpanText modifySpanText
  by_cases hri : ri = ri'
  · subst hri
    have href : ref ≠ ref' := fun he => h ⟨rfl, he⟩
    rw [modifyAt_get_same]
    cases store[ri]? with
    | none => rfl
    | some reg =>
      simp only [Option.map_some']
      cases ref with
      | run i =>
        cases ref' with
        | run i' =>
          have hii : i ≠ i' := fun he => href (by rw [he])
          simpa using modifyAt_get_ne reg.runs f hii
        | ins g' i' => rfl
        | del g' i' => rfl
      | ins g i =>
        cases ref' with
        | run i' => rfl
        | del g' i' => rfl
        | ins g' i' =>
          exact getWt_modify_ne reg.ins f fun ⟨hg, hi⟩ => href (by rw [hg, hi])
      | del g i =>
        cases ref' with
        | run i' => rfl
        | ins g' i' => rfl
        | del g' i' =>
          exact getWt_modify_ne reg.del f fun ⟨hg, hi⟩ => href (by rw [hg, hi])
  · rw [modifyAt_get_ne _ _ hri]

/-! ## Lemmas: the processing pass -/

theorem process_append (store : List Region) (ms1 ms2 : List PatMatch)
    (cnt : Str → Nat) (rep : Str → List Str) :
    process_all_patterns store (ms1 ++ ms2) cnt rep =
      ((process_all_patterns (process_all_patterns store ms1 cnt rep).1 ms2
          (process_all_patterns store ms1 cnt rep).2.1
          (process_all_patterns store ms1 cnt rep).2.2.1).1,
       (process_all_patterns (process_all_patterns store ms1 cnt rep).1 ms2
          (process_all_patterns store ms1 cnt rep).2.1
          (process_all_patterns store ms1 cnt rep).2.2.1).2.1,
       (process_all_patterns (process_all_patterns store ms1 cnt rep).1 ms2
          (process_all_patterns store ms1 cnt rep).2.1
          (process_all_patterns store ms1 cnt rep).2.2.1).2.2.1,
       (process_all_patterns store ms1 cnt rep).2.2.2 ++
       (process_all_patterns (process_all_patterns store ms1 cnt rep).1 ms2
          (process_all_patterns store ms1 cnt rep).2.1
          (process_all_patterns store ms1 cnt rep).2.2.1).2.2.2) := by
  induction ms1 generalizing store cnt rep with
  | nil => simp [process_all_patterns]
  | cons m ms ih =>
    simp only [List.cons_append, process_all_patterns, List.append_eq]
    rw [ih]

theorem process_counters (ms : List PatMatch) (store : List Region)
    (cnt : Str → Nat) (rep : Str → List Str) (P : Str) :
    (process_all_patterns store ms cnt rep).2.1 P
      = cnt P + (ms.filter fun m => decide (m.pfx = P)).length := by
  induction ms generalizing store cnt rep with
  | nil => simp [process_all_patterns]
  | cons m ms ih =>
    simp only [process_all_patterns]
    rw [ih]
    by_cases hp : m.pfx = P
    · subst hp
      simp [List.filter_cons]
      omega
    · have : ¬(P = m.pfx) := fun he => hp he.symm
      simp [List.filter_cons, hp, this]

theorem process_trace (ms : List PatMatch) (store : List Region)
    (cnt : Str → Nat) (rep : Str → List Str) (P : Str) :
    ((process_all_patterns store ms cnt rep).2.2.2).filter (fun e => decide (e.1.pfx = P))
      = numberWith P (cnt P) (ms.filter fun m => decide (m.pfx = P)) := by
  induction ms generalizing store cnt rep with
  | nil => rfl
  | cons m ms ih =>
    simp only [process_all_patterns]
    by_cases hp : m.pfx = P
    · subst hp
      rw [List.filter_cons_of_pos (by simp), List.filter_cons_of_pos (by simp)]
      rw [numberWith, ih]
      simp
    · have hp' : ¬(P = m.pfx) := fun he => hp he.symm
      rw [List.filter_cons_of_neg (by simpa using hp), List.filter_cons_of_neg (by simpa using hp)]
      rw [ih]
      simp [hp']

theorem process_repls (ms : List PatMatch) (store : List Region)
    (cnt : Str → Nat) (rep : Str → List Str) (P : Str) :
    (process_all_patterns store ms cnt rep).2.2.1 P
      = rep P ++ (numberWith P (cnt P) (ms.filter fun m => decide (m.pfx = P))).map Prod.snd := by
  induction ms generalizing store cnt rep with
  | nil => simp [process_all_patterns, numberWith]
  | cons m ms ih =>
    simp only [process_all_patterns]
    rw [ih]
    by_cases hp : m.pfx = P
    · subst hp
      rw [List.filter_cons_of_pos (by simp)]
      simp [numberWith]
    · have hp' : ¬(P = m.pfx) := fun he => hp he.symm
      rw [List.filter_cons_of_neg (by simpa using hp)]
      simp [hp']

/-! ## Lemmas: collection only keeps recognised prefixes -/

theorem pfx_mem_of_collectRunsAux {pfxs : List Str} {ri : Nat} {m : PatMatch}
    {i : Nat} {ts : List Str} (h : m ∈ collectRunsAux pfxs ri i ts) : m.pfx ∈ pfxs := by
  induction ts generalizing i with
  | nil => simp [collectRunsAux] at h
  | cons t ts ih =>
    rw [collectRunsAux] at h
    rcases List.mem_append.mp h with h1 | h1
    · by_cases hs : stripChars t = []
      · simp [hs] at h1
      · rw [if_neg hs] at h1
        rcases List.mem_filterMap.mp h1 with ⟨tok, _, htok⟩
        by_cases hc : pfxs.contains tok.pfx = true
        · rw [if_pos hc] at htok
          cases htok
          exact List.elem_iff.mp hc
        · rw [if_neg hc] at htok
          cases htok
    · exact ih h1

theorem pfx_mem_of_collectGroupAux {pfxs : List Str} {ri g : Nat} {mk : Nat → Nat → SpanRef}
    {m : PatMatch} {i : Nat} {grp : List WtElem}
    (h : m ∈ collectGroupAux pfxs ri g mk i grp) : m.pfx ∈ pfxs := by
  induction grp generalizing i with
  | nil => simp [collectGroupAux] at h
  | cons e rest ih =>
    cases e with
    | bad => simp [collectGroupAux] at h
    | good t =>
      rw [collectGroupAux] at h
      rcases List.mem_append.mp h with h1 | h1
      · by_cases hs : t = []
        · simp [hs] at h1
        · rw [if_neg hs] at h1
          rcases List.mem_filterMap.mp h1 with ⟨tok, _, htok⟩
          by_cases hc : pfxs.contains tok.pfx = true
          · rw [if_pos hc] at htok
            cases htok
            exact List.elem_iff.mp hc
          · rw [if_neg hc] at htok
            cases htok
      · exact ih h1

theorem pfx_mem_of_collectGroupsAux {pfxs : List Str} {ri : Nat} {mk : Nat → Nat → SpanRef}
    {m : PatMatch} {g : Nat} {gs : List XmlGroup}
    (h : m ∈ collectGroupsAux pfxs ri mk g gs) : m.pfx ∈ pfxs := by
  induction gs generalizing g with
  | nil => simp [collectGroupsAux] at h
  | cons grp rest ih =>
    rw [collectGroupsAux] at h
    rcases List.mem_append.mp h with h1 | h1
    · exact pfx_mem_of_collectGroupAux h1
    · exact ih h1

theorem pfx_mem_of_collect_xml {pfxs : List Str} {ri : Nat} {reg : Region} {m : PatMatch}
    (h : m ∈ collect_xml_patterns ri reg pfxs) : m.pfx ∈ pfxs := by
  obtain ⟨runs, ins, del⟩ := reg
  rw [collect_xml_patterns] at h
  cases ins with
  | error e => simp at h
  | ok insGs =>
    cases del with
    | error e => exact pfx_mem_of_collectGroupsAux h
    | ok delGs =>
      rcases List.mem_append.mp h with h1 | h1
      · exact pfx_mem_of_collectGroupsAux h1
      · exact pfx_mem_of_collectGroupsAux h1

theorem pfx_mem_of_collect_paragraph {pfxs : List Str} {ri : Nat} {reg : Region} {m : PatMatch}
    (h : m ∈ collect_paragraph_patterns ri reg pfxs) : m.pfx ∈ pfxs := by
  rw [collect_paragraph_patterns] at h
  by_cases hr : reg.runs = []
  · simp [hr] at h
  · rw [if_neg hr] at h
    rcases List.mem_append.mp h with h1 | h1
    · exact pfx_mem_of_collectRunsAux h1
    · exact pfx_mem_of_collect_xml h1

theorem pfx_mem_of_collectRegions {pfxs : List Str} {m : PatMatch}
    {i : Nat} {rs : List Region} (h : m ∈ collectRegions pfxs i rs) : m.pfx ∈ pfxs := by
  induction rs generalizing i with
  | nil => simp [collectRegions] at h
  | cons r rs ih =>
    rw [collectRegions] at h
    rcases List.mem_append.mp h with h1 | h1
    · exact pfx_mem_of_collect_paragraph h1
    · exact ih h1

theorem pfx_mem_of_collect_all {doc : DocModel} {pfxs : List Str} {m : PatMatch}
    (h : m ∈ collect_all_patterns doc pfxs) : m.pfx ∈ pfxs :=
  pfx_mem_of_collectRegions (mem_isortLe.mp h)

/-! ## Lemmas: the pattern cannot match generated replacement text -/

theorem matchToken_nil : matchToken [] = none := rfl

theorem matchToken_cons_ne {c : Char} (s : Str) (h : c ≠ '[') : matchToken (c :: s) = none := by
  simp [matchToken, h]

theorem takeUpper_append (u : Str) (hu : ∀ c ∈ u, isUpperChar c = true)
    {d : Char} (hd : isUpperChar d = false) (rest : Str) :
    takeUpper (u ++ d :: rest) = (u, d :: rest) := by
  induction u with
  | nil => simp [takeUpper, hd]
  | cons c cs ih =>
    have hc : isUpperChar c = true := hu c (by simp)
    rw [List.cons_append, takeUpper]
    simp [hc, ih (fun x hx => hu x (by simp [hx]))]

theorem natDigitsAux_digits : ∀ fuel n c, c ∈ natDigitsAux fuel n →
    ∃ k, k < 10 ∧ c = digitChar k := by
  intro fuel
  induction fuel with
  | zero => intro n c h; simp [natDigitsAux] at h
  | succ fuel ih =>
    intro n c h
    rw [natDigitsAux] at h
    by_cases hn : n < 10
    · rw [if_pos hn] at h
      exact ⟨n, hn, by simpa using h⟩
    · rw [if_neg hn] at h
      rcases List.mem_append.mp h with h1 | h1
      · exact ih _ c h1
      · exact ⟨n % 10, Nat.mod_lt _ (by omega), by simpa using h1⟩

theorem natDigitsAux_ne_nil (fuel n : Nat) : natDigitsAux (fuel + 1) n ≠ [] := by
  rw [natDigitsAux]
  by_cases hn : n < 10 <;> simp [hn]

theorem pad3_mem (n : Nat) : ∀ c ∈ pad3 n, ∃ k, k < 10 ∧ c = digitChar k := by
  intro c h
  rcases List.mem_append.mp h with h1 | h1
  · exact ⟨0, by omega, by simpa using (List.eq_of_mem_replicate h1)⟩
  · exact natDigitsAux_digits _ _ c h1

theorem pad3_length (n : Nat) : 3 ≤ (pad3 n).length := by
  rw [pad3, List.length_append, List.length_replicate]
  have h1 : 1 ≤ (natDigits n).length := by
    rcases h : natDigits n with _ | ⟨c, cs⟩
    · exact absurd h (natDigitsAux_ne_nil n n)
    · simp
  omega

theorem isXChar_digitChar {k : Nat} (hk : k < 10) : isXChar (digitChar k) = false := by
  interval_cases k <;> decide

theorem digitChar_ne_lbracket {k : Nat} (hk : k < 10) : digitChar k ≠ '[' := by
  interval_cases k <;> decide

theorem pad3_shape (n : Nat) :
    ∃ p1 p2 p3 ps, pad3 n = p1 :: p2 :: p3 :: ps ∧ isXChar p1 = false := by
  rcases hp : pad3 n with _ | ⟨p1, _ | ⟨p2, _ | ⟨p3, ps⟩⟩⟩
  · have := pad3_length n
    rw [hp] at this
    simp at this
  · have := pad3_length n
    rw [hp] at this
    simp at this
  · have := pad3_length n
    rw [hp] at this
    simp at this
  · refine ⟨p1, p2, p3, ps, rfl, ?_⟩
    have hm : p1 ∈ pad3 n := by rw [hp]; simp
    obtain ⟨k, hk, hck⟩ := pad3_mem n p1 hm
    rw [hck]
    exact isXChar_digitChar hk

theorem isUpperChar_ne_lbracket {c : Char} (h : isUpperChar c = true) : c ≠ '[' := by
  intro he
  rw [he] at h
  exact absurd h (by decide)

theorem matchToken_fmt (p : Str) (n : Nat) (hp : p ≠ [])
    (hup : ∀ c ∈ p, isUpperChar c = true) : matchToken (fmtToken p n) = none := by
  rw [fmtToken, matchToken]
  have hdash : isUpperChar '-' = false := by decide
  simp only [if_pos rfl, takeUpper_append p hup hdash]
  obtain ⟨p1, p2, p3, ps, hpad, hx1⟩ := pad3_shape n
  rw [hpad]
  rcases hq : ps ++ [']'] with _ | ⟨rb, rest⟩
  · simp at hq
  · simp [hp, List.cons_append, hq, hx1]

theorem matchToken_drop_none_of_no_lbracket (l : Str) (h : ∀ c ∈ l, c ≠ '[') (k : Nat) :
    matchToken (List.drop k l) = none := by
  rcases hd : List.drop k l with _ | ⟨c, cs⟩
  · exact matchToken_nil
  · have hc : c ∈ l := List.drop_subset k l (by rw [hd]; simp)
    exact matchToken_cons_ne cs (h c hc)

theorem findAux_nil_of_no_match (l : Str) (hall : ∀ n, matchToken (List.drop n l) = none) :
    ∀ skip pos, findAux l skip pos = [] := by
  induction l with
  | nil => intro skip pos; rfl
  | cons c cs ih =>
    have hcs : ∀ n, matchToken (List.drop n cs) = none := fun n => by
      simpa using hall (n + 1)
    intro skip pos
    cases skip with
    | succ k => exact ih hcs k (pos + 1)
    | zero =>
      have h0 : matchToken (c :: cs) = none := by simpa using hall 0
      rw [findAux, h0]
      exact ih hcs 0 (pos + 1)

theorem fmtToken_drop_matchToken_none (p : Str) (n : Nat) (hp : p ≠ [])
    (hup : ∀ c ∈ p, isUpperChar c = true) :
    ∀ k, matchToken (List.drop k (fmtToken p n)) = none := by
  intro k
  cases k with
  | zero => simpa using matchToken_fmt p n hp hup
  | succ k =>
    have hd : List.drop (k + 1) (fmtToken p n) = List.drop k (p ++ '-' :: (pad3 n ++ [']'])) := by
      rw [fmtToken]
      rfl
    rw [hd]
    apply matchToken_drop_none_of_no_lbracket
    intro c hc
    rcases List.mem_append.mp hc with h1 | h1
    · exact isUpperChar_ne_lbracket (hup c h1)
    · rcases List.mem_cons.mp h1 with rfl | h1
      · decide
      · rcases List.mem_append.mp h1 with h2 | h2
        · obtain ⟨j, hj, hcj⟩ := pad3_mem n c h2
          rw [hcj]
          exact digitChar_ne_lbracket hj
        · have : c = ']' := by simpa using h2
          rw [this]
          decide

/-! ## Lemmas: the fallback rewriter -/

theorem joinStr_replace_across (runs : List Str) (old nw : Str) {i : Nat}
    (h : strFind (joinStr runs) old = some i) :
    joinStr (replace_across_runs runs old nw)
      = (joinStr runs).take i ++ nw ++ (joinStr runs).drop (i + old.length) := by
  rw [replace_across_runs]
  simp only [h]
  by_cases hb : (joinStr runs).take i = []
  · by_cases ha : (joinStr runs).drop (i + old.length) = []
    · rw [if_pos hb, if_pos ha, hb, ha]
      simp [joinStr]
    · rw [if_pos hb, if_neg ha, hb]
      simp [joinStr]
  · by_cases ha : (joinStr runs).drop (i + old.length) = []
    · rw [if_neg hb, if_pos ha, ha]
      simp [joinStr]
    · rw [if_neg hb, if_neg ha]
      simp [joinStr]

theorem replace_in_runs_fallback (runs : List Str) (old nw : Str)
    (hne : runs ≠ []) (hsingle : ∀ r ∈ runs, containsSub r old = false) :
    replace_in_runs runs old nw = replace_across_runs runs old nw := by
  rw [replace_in_runs, if_neg hne]
  rw [List.findIdx?_eq_none_iff.mpr hsingle]

theorem getD_ne_imp_lt {l : List α} {k : Nat} {d : α} (h : l.getD k d ≠ d) : k < l.length := by
  by_contra hk
  exact h (by
    rw [List.getD_eq_getElem?_getD, List.getElem?_eq_none (by omega)]
    rfl)

theorem modifyAt_getD_same (l : List α) (i : Nat) (f : α → α) (d : α) (h : i < l.length) :
    (modifyAt l i f).getD i d = f (l.getD i d) := by
  rw [List.getD_eq_getElem?_getD, List.getD_eq_getElem?_getD, modifyAt_get_same]
  rw [List.getElem?_eq_getElem h]
  rfl

theorem modifyAt_getD_ne (l : List α) {i j : Nat} (f : α → α) (d : α) (h : j ≠ i) :
    (modifyAt l i f).getD j d = l.getD j d := by
  rw [List.getD_eq_getElem?_getD, List.getD_eq_getElem?_getD, modifyAt_get_ne _ _ h]

/-! ## Lemmas: the reducer -/

theorem procComments_append (st : RState) (cs1 cs2 : List Str) :
    procComments st (cs1 ++ cs2) =
      match procComments st cs1 with
      | Except.ok s => procComments s cs2
      | Except.error s => Except.error s := by
  induction cs1 generalizing st with
  | nil => rfl
  | cons c cs ih =>
    rw [List.cons_append, procComments, procComments]
    cases procComment st c with
    | ok s => exact ih s
    | error s => rfl

theorem procRuns_append (st : RState) (rs1 rs2 : List XRun) :
    procRuns st (rs1 ++ rs2) =
      match procRuns st rs1 with
      | Except.ok s => procRuns s rs2
      | Except.error s => Except.error s := by
  induction rs1 generalizing st with
  | nil => rfl
  | cons r rs ih =>
    rw [List.cons_append, procRuns, procRuns]
    cases procRun st r with
    | ok s => exact ih s
    | error s => rfl

theorem procComment_error_of_raises {c : Str} (st : RState) (hc : commentRaises c = true) :
    procComment st c = Except.error st := by
  rw [commentRaises, Bool.and_eq_true] at hc
  obtain ⟨h1, h2⟩ := hc
  have h1' : (stripChars c).head? = some '#' := by simpa using h1
  have h2' : splitOnceColon ((stripChars c).drop 1) = none := by
    simpa using h2
  have hat : ¬((stripChars c).head? = some '@') := by
    rw [h1']
    simp
  simp only [procComment]
  rw [if_neg hat, if_pos h1', h2']

theorem procComment_ok_of_not_raises {c : Str} (st : RState) (hc : commentRaises c = false) :
    ∃ st', procComment st c = Except.ok st' := by
  rw [procComment]
  by_cases hh : (stripChars c).head? = some '#'
  · rw [commentRaises] at hc
    have hsp : (splitOnceColon ((stripChars c).drop 1)).isNone = false := by
      rcases Bool.and_eq_false_iff.mp hc with h | h
      · exact absurd (by simpa using hh) (by simpa using h)
      · exact h
    cases hcol : splitOnceColon ((stripChars c).drop 1) with
    | none => rw [hcol] at hsp; simp at hsp
    | some pr =>
      obtain ⟨t1, t2⟩ := pr
      rw [if_pos hh]
      exact ⟨_, rfl⟩
  · rw [if_neg hh]
    exact ⟨_, rfl⟩

theorem procComments_ok_of_not_raises {cs : List Str} (st : RState)
    (h : ∀ c ∈ cs, commentRaises c = false) :
    ∃ st', procComments st cs = Except.ok st' := by
  induction cs generalizing st with
  | nil => exact ⟨st, rfl⟩
  | cons c cs ih =>
    obtain ⟨s1, hs1⟩ := procComment_ok_of_not_raises st (h c (by simp))
    obtain ⟨s2, hs2⟩ := ih s1 (fun c' hc' => h c' (by simp [hc']))
    refine ⟨s2, ?_⟩
    rw [procComments, hs1]
    exact hs2

theorem procRuns_ok_of_not_raises {rs : List XRun} (st : RState)
    (h : ∀ r ∈ rs, ∀ c ∈ r.comments, commentRaises c = false) :
    ∃ st', procRuns st rs = Except.ok st' := by
  induction rs generalizing st with
  | nil => exact ⟨st, rfl⟩
  | cons r rs ih =>
    obtain ⟨s1, hs1⟩ :=
      procComments_ok_of_not_raises
        (if r.text = [] then st else { st with prev := stripChars r.text })
        (h r (by simp))
    obtain ⟨s2, hs2⟩ := ih s1 (fun r' hr' c hc => h r' (by simp [hr']) c hc)
    refine ⟨s2, ?_⟩
    have hpr : procRun st r = Except.ok s1 := hs1
    rw [procRuns, hpr]
    exact hs2

/-! ## Lemmas: overlay truncation (for the exception-swallowing claim) -/

theorem collectGroupAux_truncGroup (pfxs : List Str) (ri g : Nat) (mk : Nat → Nat → SpanRef)
    (grp : List WtElem) : ∀ i, collectGroupAux pfxs ri g mk i (truncGroup grp)
      = collectGroupAux pfxs ri g mk i grp := by
  induction grp with
  | nil => intro i; rfl
  | cons e rest ih =>
    cases e with
    | bad => intro i; rfl
    | good t =>
      intro i
      rw [truncGroup, collectGroupAux, collectGroupAux, ih]

theorem truncGroup_no_bad (grp : List WtElem) : ∀ e ∈ truncGroup grp, e ≠ WtElem.bad := by
  induction grp with
  | nil => simp [truncGroup]
  | cons e rest ih =>
    cases e with
    | bad => simp [truncGroup]
    | good t =>
      rw [truncGroup]
      intro e' he'
      rcases List.mem_cons.mp he' with rfl | he'
      · simp
      · exact ih e' he'

theorem collectGroupsAux_map_trunc (pfxs : List Str) (ri : Nat) (mk : Nat → Nat → SpanRef)
    (gs : List XmlGroup) : ∀ g, collectGroupsAux pfxs ri mk g (gs.map truncGroup)
      = collectGroupsAux pfxs ri mk g gs := by
  induction gs with
  | nil => intro g; rfl
  | cons grp rest ih =>
    intro g
    rw [List.map_cons, collectGroupsAux, collectGroupsAux, collectGroupAux_truncGroup, ih]

/-! ## Lemmas: the 999 + 1 document -/

theorem collect_para_reqPara (i : Nat) :
    collect_paragraph_patterns i reqPara pfxs0 = [singleReqMatch i] := rfl

theorem collect_para_dblPara (i : Nat) :
    collect_paragraph_patterns i dblPara pfxs0
      = [⟨"REQ".data, "[REQ-XXX]".data, i, SpanRef.run 0, 0, 9⟩,
         ⟨"REQ".data, "[REQ-XXX]".data, i, SpanRef.run 0, 9, 18⟩] := rfl

theorem collectRegions_append (pfxs : List Str) (xs ys : List Region) :
    ∀ i, collectRegions pfxs i (xs ++ ys)
      = collectRegions pfxs i xs ++ collectRegions pfxs (i + xs.length) ys := by
  induction xs with
  | nil => intro i; simp [collectRegions]
  | cons r rs ih =>
    intro i
    rw [List.cons_append, collectRegions, collectRegions, ih (i + 1), List.append_assoc]
    have : i + 1 + rs.length = i + (r :: rs).length := by
      simp [List.length_cons]
      omega
    rw [this]

theorem collectRegions_replicate_req : ∀ n k,
    collectRegions pfxs0 k (List.replicate n reqPara) = seqMatches k n := by
  intro n
  induction n with
  | zero => intro k; rfl
  | succ n ih =>
    intro k
    rw [List.replicate_succ, collectRegions, collect_para_reqPara, ih (k + 1), seqMatches]
    rfl

theorem seqMatches_pfx : ∀ k n m, m ∈ seqMatches k n → m.pfx = "REQ".data := by
  intro k n
  induction n generalizing k with
  | zero => intro m h; simp [seqMatches] at h
  | succ n ih =>
    intro m h
    rw [seqMatches] at h
    rcases List.mem_cons.mp h with rfl | h
    · rfl
    · exact ih (k + 1) m h

theorem seqMatches_region : ∀ k n m, m ∈ seqMatches k n → m.region < k + n := by
  intro k n
  induction n generalizing k with
  | zero => intro m h; simp [seqMatches] at h
  | succ n ih =>
    intro m h
    rw [seqMatches] at h
    rcases List.mem_cons.mp h with rfl | h
    · show k < k + (n + 1)
      omega
    · have := ih (k + 1) m h
      omega

theorem seqMatches_filter_req : ∀ n k,
    ((seqMatches k n).filter fun m => decide (m.pfx = "REQ".data)).length = n := by
  intro n
  induction n with
  | zero => intro k; rfl
  | succ n ih =>
    intro k
    rw [seqMatches, List.filter_cons_of_pos (by simp [singleReqMatch]), List.length_cons, ih]

theorem process_frame (ms : List PatMatch) (store : List Region)
    (cnt : Str → Nat) (rep : Str → List Str) {ri : Nat} {ref : SpanRef}
    (h : ∀ m ∈ ms, ¬(m.region = ri ∧ m.ref = ref)) :
    getSpanText (process_all_patterns store ms cnt rep).1 ri ref
      = getSpanText store ri ref := by
  induction ms generalizing store cnt rep with
  | nil => rfl
  | cons m ms ih =>
    simp only [process_all_patterns]
    rw [ih _ _ _ (fun m' hm' => h m' (List.mem_cons_of_mem m hm'))]
    exact getSpanText_modify_ne store _
      (fun ⟨h1, h2⟩ => h m (List.mem_cons_self m ms) ⟨h1.symm, h2.symm⟩)

/-! ## Claims -/

/-- C4: the token pattern never matches any generated replacement string —
for every captured prefix (a non-empty uppercase-letter string) and every
assigned number, `[prefix-NNN]` (digits in place of the `XXX` placeholder)
contains no match of the default pattern, so rescanning generated output
finds nothing in it. -/
theorem claim_C4_no_rematch (p : Str) (n : Nat) (hp : p ≠ [])
    (hup : ∀ c ∈ p, isUpperChar c = true) :
    findMatches (fmtToken p n) = [] := by
  rw [findMatches]
  exact findAux_nil_of_no_match _ (fmtToken_drop_matchToken_none p n hp hup) 0 0

/-- C4 witness: the generated text for prefix `REQ` and number 1000 (a
number wide enough to overflow the zero padding) contains no match. -/
theorem claim_C4_witness :
    ("REQ".data ≠ [] ∧ ∀ c ∈ "REQ".data, isUpperChar c = true)
    ∧ findMatches (fmtToken "REQ".data 1000) = [] :=
  ⟨⟨by decide, by decide⟩, claim_C4_no_rematch "REQ".data 1000 (by decide) (by decide)⟩

/-- C3 counterexample: for the straddling match `[REQ-XXX]` over the two
spans `[REQ-` and `XXX]` (found in no single span, so the fallback fires,
and both surrounding texts are empty), `_replace_across_runs` creates
exactly one span, not three — refuting "exactly three new spans … including
when the text before or after the match is empty". -/
theorem claim_C3_counterexample :
    containsSub "[REQ-".data "[REQ-XXX]".data = false
    ∧ containsSub "XXX]".data "[REQ-XXX]".data = false
    ∧ containsSub (joinStr ["[REQ-".data, "XXX]".data]) "[REQ-XXX]".data = true
    ∧ replace_across_runs ["[REQ-".data, "XXX]".data] "[REQ-XXX]".data "[REQ-001]".data
        = ["[REQ-001]".data]
    ∧ (replace_across_runs ["[REQ-".data, "XXX]".data] "[REQ-XXX]".data "[REQ-001]".data).length
        ≠ 3 := by
  refine ⟨by decide, by decide, by decide, by decide, by decide⟩

/-- C3 amended: whenever the matched text is found in the region's full text
(first occurrence at `i`), the fallback discards all spans and recreates the
region as: text-before-match (omitted when empty), the replacement text, and
text-after-match (omitted when empty) — exactly three spans precisely when
both surrounding texts are non-empty — and the rebuilt concatenation is
`before ++ replacement ++ after`. -/
theorem claim_C3_amended (runs : List Str) (old nw : Str) (i : Nat)
    (h : strFind (joinStr runs) old = some i) :
    replace_across_runs runs old nw
        = (if (joinStr runs).take i = [] then [] else [(joinStr runs).take i]) ++ [nw]
          ++ (if (joinStr runs).drop (i + old.length) = [] then []
              else [(joinStr runs).drop (i + old.length)])
    ∧ ((joinStr runs).take i ≠ [] → (joinStr runs).drop (i + old.length) ≠ [] →
        replace_across_runs runs old nw
          = [(joinStr runs).take i, nw, (joinStr runs).drop (i + old.length)])
    ∧ joinStr (replace_across_runs runs old nw)
        = (joinStr runs).take i ++ nw ++ (joinStr runs).drop (i + old.length) := by
  refine ⟨?_, ?_, joinStr_replace_across runs old nw h⟩
  · rw [replace_across_runs]
    simp only [h]
  · intro hb ha
    rw [replace_across_runs]
    simp only [h]
    rw [if_neg hb, if_neg ha]
    rfl

/-- C3 witness: the amended statement at a concrete straddling match with
non-empty text on both sides. -/
theorem claim_C3_witness :
    strFind (joinStr ["ab[RE".data, "Q-XXX]cd".data]) "[REQ-XXX]".data = some 2
    ∧ replace_across_runs ["ab[RE".data, "Q-XXX]cd".data] "[REQ-XXX]".data "[REQ-001]".data
        = [(joinStr ["ab[RE".data, "Q-XXX]cd".data]).take 2, "[REQ-001]".data,
           (joinStr ["ab[RE".data, "Q-XXX]cd".data]).drop (2 + "[REQ-XXX]".data.length)] :=
  ⟨by decide,
   (claim_C3_amended ["ab[RE".data, "Q-XXX]cd".data] "[REQ-XXX]".data "[REQ-001]".data 2
      (by decide)).2.1 (by decide) (by decide)⟩

/-- C8: when the fallback fires for a match that straddles multiple spans
(the matched text is in no single span but occurs in the region's full text
at `i`), the rebuilt region's concatenated text equals
`before ++ replacement ++ after` exactly, and no other region of the
document changes. -/
theorem claim_C8_fallback_rebuild (doc : List (List Str)) (k : Nat) (old nw : Str) (i : Nat)
    (hne : doc.getD k [] ≠ [])
    (hsingle : ∀ r ∈ doc.getD k [], containsSub r old = false)
    (hfind : strFind (joinStr (doc.getD k [])) old = some i) :
    joinStr ((replaceInDocAt doc k old nw).getD k [])
        = (joinStr (doc.getD k [])).take i ++ nw
          ++ (joinStr (doc.getD k [])).drop (i + old.length)
    ∧ ∀ j, j ≠ k → (replaceInDocAt doc k old nw).getD j [] = doc.getD j [] := by
  have hk : k < doc.length := getD_ne_imp_lt hne
  constructor
  · rw [replaceInDocAt, modifyAt_getD_same _ _ _ _ hk]
    rw [replace_in_runs_fallback _ _ _ hne hsingle]
    exact joinStr_replace_across _ _ _ hfind
  · intro j hj
    rw [replaceInDocAt, modifyAt_getD_ne _ _ _ hj]

/-- C8 witness: the rebuild equality at a concrete two-region document whose
first region holds a straddling match. -/
theorem claim_C8_witness :
    joinStr ((replaceInDocAt [["ab[RE".data, "Q-XXX]cd".data], ["zz".data]] 0
        "[REQ-XXX]".data "[REQ-001]".data).getD 0 [])
      = (joinStr ["ab[RE".data, "Q-XXX]cd".data]).take 2 ++ "[REQ-001]".data
        ++ (joinStr ["ab[RE".data, "Q-XXX]cd".data]).drop (2 + "[REQ-XXX]".data.length) :=
  (claim_C8_fallback_rebuild [["ab[RE".data, "Q-XXX]cd".data], ["zz".data]] 0
    "[REQ-XXX]".data "[REQ-001]".data 2 (by decide) (by decide) (by decide)).1

/-- C5 counterexample: an overlay that collects one recognised match and
then raises contributes that match, not "the same result as an overlay with
no matches" — the exception is swallowed, but the contribution is the
partial match list accumulated before the failure. -/
theorem claim_C5_counterexample :
    overlayRaises badReg = true ∧ collect_xml_patterns 0 badReg pfxs0 ≠ [] := by
  refine ⟨by decide, by decide⟩

/-- C5 amended: every exception during overlay traversal is swallowed — the
paragraph collector still returns the visible-run matches followed by the
overlay contribution, and the overlay contribution equals that of some
failure-free overlay (the matches collected before the failure point; the
empty overlay when the failure precedes any match). -/
theorem claim_C5_amended (ri : Nat) (reg : Region) (pfxs : List Str)
    (hruns : reg.runs ≠ []) :
    collect_paragraph_patterns ri reg pfxs
        = collectRunsAux pfxs ri 0 reg.runs ++ collect_xml_patterns ri reg pfxs
    ∧ ∃ reg' : Region, reg'.runs = reg.runs ∧ overlayClean reg' ∧
        collect_xml_patterns ri reg' pfxs = collect_xml_patterns ri reg pfxs := by
  refine ⟨by rw [collect_paragraph_patterns, if_neg hruns], ?_⟩
  obtain ⟨runs, ins, del⟩ := reg
  cases ins with
  | error e =>
    refine ⟨⟨runs, Except.ok [], Except.ok []⟩, rfl,
      ⟨[], [], rfl, rfl, by simp, by simp⟩, rfl⟩
  | ok gi =>
    cases del with
    | error e =>
      refine ⟨⟨runs, Except.ok (gi.map truncGroup), Except.ok []⟩, rfl,
        ⟨gi.map truncGroup, [], rfl, rfl, ?_, by simp⟩, ?_⟩
      · intro g hg e' he'
        rcases List.mem_map.mp hg with ⟨g0, _, rfl⟩
        exact truncGroup_no_bad g0 e' he'
      · show collectGroupsAux pfxs ri SpanRef.ins 0 (gi.map truncGroup)
            ++ collectGroupsAux pfxs ri SpanRef.del 0 []
          = collectGroupsAux pfxs ri SpanRef.ins 0 gi
        rw [collectGroupsAux_map_trunc]
        simp [collectGroupsAux]
    | ok gd =>
      refine ⟨⟨runs, Except.ok (gi.map truncGroup), Except.ok (gd.map truncGroup)⟩, rfl,
        ⟨gi.map truncGroup, gd.map truncGroup, rfl, rfl, ?_, ?_⟩, ?_⟩
      · intro g hg e' he'
        rcases List.mem_map.mp hg with ⟨g0, _, rfl⟩
        exact truncGroup_no_bad g0 e' he'
      · intro g hg e' he'
        rcases List.mem_map.mp hg with ⟨g0, _, rfl⟩
        exact truncGroup_no_bad g0 e' he'
      · show collectGroupsAux pfxs ri SpanRef.ins 0 (gi.map truncGroup)
            ++ collectGroupsAux pfxs ri SpanRef.del 0 (gd.map truncGroup)
          = collectGroupsAux pfxs ri SpanRef.ins 0 gi
            ++ collectGroupsAux pfxs ri SpanRef.del 0 gd
        rw [collectGroupsAux_map_trunc, collectGroupsAux_map_trunc]

/-- C5 witness: the amended statement at the region whose overlay raises
after one match. -/
theorem claim_C5_witness :
    collect_paragraph_patterns 0 badReg pfxs0
        = collectRunsAux pfxs0 0 0 badReg.runs ++ collect_xml_patterns 0 badReg pfxs0 :=
  (claim_C5_amended 0 badReg pfxs0 (by decide)).1

/-- C6: a `#`-annotation whose remainder lacks the `:` separator is fatal
for the enclosing paragraph only — that paragraph's processing produces
exactly the state reached just before the malformed annotation (everything
after it in the paragraph is not recorded, everything before it is kept),
and the reducer continues with the next paragraph from that state. -/
theorem claim_C6_malformed_term (st : RState) (rs1 : List XRun) (t : Str)
    (cs1 : List Str) (c : Str) (cs2 : List Str) (rs2 : List XRun) (ps : List (List XRun))
    (h1 : ∀ r ∈ rs1, ∀ c' ∈ r.comments, commentRaises c' = false)
    (h2 : ∀ c' ∈ cs1, commentRaises c' = false)
    (hc : commentRaises c = true) :
    procParagraph st (rs1 ++ (⟨t, cs1 ++ c :: cs2⟩ : XRun) :: rs2)
        = procParagraph st (rs1 ++ [(⟨t, cs1⟩ : XRun)])
    ∧ extractGo st ((rs1 ++ (⟨t, cs1 ++ c :: cs2⟩ : XRun) :: rs2) :: ps)
        = extractGo (procParagraph st (rs1 ++ (⟨t, cs1 ++ c :: cs2⟩ : XRun) :: rs2)) ps := by
  refine ⟨?_, rfl⟩
  obtain ⟨s, hs⟩ := procRuns_ok_of_not_raises st h1
  obtain ⟨s2, hs2⟩ :=
    procComments_ok_of_not_raises
      (if (t : Str) = [] then s else { s with prev := stripChars t }) h2
  have hrunL : procRun s ⟨t, cs1 ++ c :: cs2⟩ = Except.error s2 := by
    show procComments (if (t : Str) = [] then s else { s with prev := stripChars t })
        (cs1 ++ c :: cs2) = Except.error s2
    rw [procComments_append, hs2]
    show procComments s2 (c :: cs2) = Except.error s2
    rw [procComments, procComment_error_of_raises s2 hc]
  have hrunR : procRun s ⟨t, cs1⟩ = Except.ok s2 := hs2
  have hL : procRuns st (rs1 ++ (⟨t, cs1 ++ c :: cs2⟩ : XRun) :: rs2) = Except.error s2 := by
    rw [procRuns_append, hs]
    show procRuns s ((⟨t, cs1 ++ c :: cs2⟩ : XRun) :: rs2) = Except.error s2
    rw [procRuns, hrunL]
  have hR : procRuns st (rs1 ++ [(⟨t, cs1⟩ : XRun)]) = Except.ok s2 := by
    rw [procRuns_append, hs]
    show procRuns s [(⟨t, cs1⟩ : XRun)] = Except.ok s2
    rw [procRuns, hrunR]
    rfl
  rw [procParagraph, procParagraph, hL, hR]

/-- C6 witness: a malformed `#`-annotation in mid-paragraph drops the rest
of that paragraph and only that paragraph. -/
theorem claim_C6_witness :
    procParagraph ⟨[], [], []⟩
        ([] ++ (⟨"a".data, ["@Q".data] ++ "#oops".data :: ["@Z".data]⟩ : XRun)
          :: [(⟨"b".data, ["@Y".data]⟩ : XRun)])
      = procParagraph ⟨[], [], []⟩ ([] ++ [(⟨"a".data, ["@Q".data]⟩ : XRun)]) :=
  (claim_C6_malformed_term ⟨[], [], []⟩ [] "a".data ["@Q".data] "#oops".data ["@Z".data]
    [⟨"b".data, ["@Y".data]⟩] [] (by simp) (by decide) (by decide)).1

/-- C7: on the span/annotation sequence
`[("Req1", []), ("", ["@REQ"]), ("X", ["#Term: means X"])]` the reducer
produces the abbreviation map `{"Req1": "REQ"}` (the `@`-annotation keyed by
the last non-blank span text before it) and the term map
`{"Term": "means X"}` (split once on `:` with the definition trimmed). -/
theorem claim_C7_reducer_example :
    extract_abbreviations
        [[⟨"Req1".data, []⟩, ⟨"".data, ["@REQ".data]⟩, ⟨"X".data, ["#Term: means X".data]⟩]]
      = ([("Req1".data, "REQ".data)], [("Term".data, "means X".data)]) := by
  decide

/-- C10: the reducer's anchor is not reset at paragraph boundaries (an `@`
in a paragraph with no preceding non-empty run is keyed by the last
non-empty run text of an earlier paragraph), is the empty string at the
start of the document, is overwritten to the empty string by a
whitespace-only run, and is not touched by a run with empty text. -/
theorem claim_C10_anchor_behaviour :
    extract_abbreviations [[⟨"Req1".data, []⟩], [⟨"".data, ["@A".data]⟩]]
        = ([("Req1".data, "A".data)], [])
    ∧ extract_abbreviations [[⟨"".data, ["@C".data]⟩]] = ([("".data, "C".data)], [])
    ∧ extract_abbreviations [[⟨"ok".data, []⟩, ⟨" ".data, []⟩, ⟨"".data, ["@D".data]⟩]]
        = ([("".data, "D".data)], [])
    ∧ extract_abbreviations [[⟨"ok".data, []⟩, ⟨"".data, []⟩, ⟨"".data, ["@E".data]⟩]]
        = ([("ok".data, "E".data)], []) := by
  refine ⟨by decide, by decide, by decide, by decide⟩

/-- C1: for every document and every recognised prefix `P`, the rewrite
pass pairs the collected matches carrying prefix `P` — taken in the
original document-traversal order — with the generated texts `[P-001]`,
`[P-002]`, …: consecutive numbers starting at 1, no gaps, no repeats, the
`j`-th `P`-match of the traversal receiving number `j` and being rewritten
with exactly that text; the recorded `replacements[P]` list holds the same
generated texts in the same order; and the processed list is the traversal
list stably sorted by prefix only (sorted by prefix, and within one prefix
the traversal-order relative sequence is preserved). -/
theorem claim_C1_sequential_numbering (doc : DocModel) (pfxs : List Str) (P : Str)
    (_hP : P ∈ pfxs) :
    ((find_and_replace_patterns doc pfxs).2.2.2).filter (fun e => decide (e.1.pfx = P))
        = numberWith P 1
            ((collectRegions pfxs 0 (allRegions doc)).filter fun m => decide (m.pfx = P))
    ∧ (find_and_replace_patterns doc pfxs).2.2.1 P
        = (numberWith P 1
            ((collectRegions pfxs 0 (allRegions doc)).filter fun m =>
              decide (m.pfx = P))).map Prod.snd
    ∧ (collect_all_patterns doc pfxs).Pairwise (fun a b => matchLe a b = true)
    ∧ (collect_all_patterns doc pfxs).filter (fun m => decide (m.pfx = P))
        = (collectRegions pfxs 0 (allRegions doc)).filter fun m => decide (m.pfx = P) := by
  have hstab : (collect_all_patterns doc pfxs).filter (fun m => decide (m.pfx = P))
      = (collectRegions pfxs 0 (allRegions doc)).filter fun m => decide (m.pfx = P) := by
    rw [collect_all_patterns]
    apply filter_isortLe
    intro x y hx hy
    have hx' : x.pfx = P := of_decide_eq_true hx
    have hy' : y.pfx = P := of_decide_eq_true hy
    rw [matchLe, hx', hy']
    exact strLeB_refl P
  refine ⟨?_, ?_, ?_, hstab⟩
  · rw [find_and_replace_patterns, process_trace, hstab]
  · rw [find_and_replace_patterns, process_repls, hstab]
    simp
  · rw [collect_all_patterns]
    have htot : ∀ x y : PatMatch, matchLe x y = true ∨ matchLe y x = true :=
      fun x y => strLeB_total x.pfx y.pfx
    have htr : ∀ {x y z : PatMatch},
        matchLe x y = true → matchLe y z = true → matchLe x z = true := by
      intro x y z hxy hyz
      simp only [matchLe] at hxy hyz ⊢
      exact strLeB_trans hxy hyz
    exact pairwise_isortLe htot htr _

/-- C1 witness: the numbering equation for prefix `REQ` on a document with
interleaved `SYS` and `REQ` tokens. -/
theorem claim_C1_witness :
    "REQ".data ∈ pfxs0
    ∧ ((find_and_replace_patterns
          ⟨[mkPara ["a[SYS-XXX]".data, "[REQ-XXX]b".data, "[REQ-XXX]".data]], [], []⟩
          pfxs0).2.2.2).filter (fun e => decide (e.1.pfx = "REQ".data))
        = numberWith "REQ".data 1
            ((collectRegions pfxs0 0
                (allRegions
                  ⟨[mkPara ["a[SYS-XXX]".data, "[REQ-XXX]b".data, "[REQ-XXX]".data]], [], []⟩)).filter
              fun m => decide (m.pfx = "REQ".data)) :=
  ⟨by decide,
   (claim_C1_sequential_numbering
      ⟨[mkPara ["a[SYS-XXX]".data, "[REQ-XXX]b".data, "[REQ-XXX]".data]], [], []⟩
      pfxs0 "REQ".data (by decide)).1⟩

set_option maxRecDepth 8000 in
/-- C2: an input exists on which a later match in an already-rewritten span
is processed with offsets computed against the span's pre-rewrite text and
the rewrite is misplaced and truncated: in `doc2` the last span holds two
matches which receive the numbers 1000 and 1001, the first replacement
`[REQ-1000]` is one character wider than the matched text, and the second
splice at the stale offsets `(9, 18)` lands inside the first replacement,
producing `[REQ-1000[REQ-1001]]` instead of `[REQ-1000][REQ-1001]`. -/
theorem claim_C2_stale_offset_corruption :
    getSpanText (find_and_replace_patterns doc2 pfxs0).1 999 (SpanRef.run 0)
        = some "[REQ-1000[REQ-1001]]".data
    ∧ "[REQ-1000[REQ-1001]]".data ≠ "[REQ-1000][REQ-1001]".data := by
  refine ⟨?_, by decide⟩
  have hall : allRegions doc2 = List.replicate 999 reqPara ++ [dblPara] := by
    simp [allRegions, doc2]
  have hone : collectRegions pfxs0 999 [dblPara]
      = [⟨"REQ".data, "[REQ-XXX]".data, 999, SpanRef.run 0, 0, 9⟩,
         ⟨"REQ".data, "[REQ-XXX]".data, 999, SpanRef.run 0, 9, 18⟩] := rfl
  have hcollect : collectRegions pfxs0 0 (allRegions doc2)
      = seqMatches 0 999
        ++ [⟨"REQ".data, "[REQ-XXX]".data, 999, SpanRef.run 0, 0, 9⟩,
            ⟨"REQ".data, "[REQ-XXX]".data, 999, SpanRef.run 0, 9, 18⟩] := by
    rw [hall, collectRegions_append, collectRegions_replicate_req, List.length_replicate,
        Nat.zero_add, hone]
  have hsorted : collect_all_patterns doc2 pfxs0
      = seqMatches 0 999
        ++ [⟨"REQ".data, "[REQ-XXX]".data, 999, SpanRef.run 0, 0, 9⟩,
            ⟨"REQ".data, "[REQ-XXX]".data, 999, SpanRef.run 0, 9, 18⟩] := by
    rw [collect_all_patterns, hcollect]
    apply isortLe_of_const_pfx "REQ".data
    intro m hm
    rcases List.mem_append.mp hm with h | h
    · exact seqMatches_pfx 0 999 m h
    · rcases List.mem_cons.mp h with rfl | h
      · rfl
      · rcases List.mem_cons.mp h with rfl | h
        · rfl
        · simp at h
  have hbase :
      getSpanText
        (process_all_patterns (allRegions doc2) (seqMatches 0 999)
          (fun _ => 1) (fun _ => [])).1 999 (SpanRef.run 0)
      = some "[REQ-XXX][REQ-XXX]".data := by
    rw [process_frame _ _ _ _ (fun m hm hmr => by
      have h1 := hmr.1
      have h2 := seqMatches_region 0 999 m hm
      omega)]
    rw [hall]
    have h999 : (List.replicate 999 reqPara ++ [dblPara])[999]? = some dblPara := by
      rw [List.getElem?_append_right (by simp)]
      simp
    simp [getSpanText, h999, dblPara, mkPara]
  have hcnt :
      (process_all_patterns (allRegions doc2) (seqMatches 0 999)
        (fun _ => 1) (fun _ => [])).2.1 "REQ".data = 1000 := by
    rw [process_counters, seqMatches_filter_req]
  rw [find_and_replace_patterns, hsorted, process_append]
  set O1 := process_all_patterns (allRegions doc2) (seqMatches 0 999)
    (fun _ => 1) (fun _ => []) with hO1
  simp only [process_all_patterns]
  rw [getSpanText_modify_same, getSpanText_modify_same, hbase, hcnt]
  decide

/-- C9 counterexample: in the span `[FOO-XXX][REQ-XXX]` the `FOO` token has
an unrecognised prefix, yet the span's text is changed by the rewrite pass
(the recognised `REQ` match in the same span is rewritten) — refuting "its
span text is left untouched verbatim" as universally stated. -/
theorem claim_C9_counterexample :
    (findMatches "[FOO-XXX][REQ-XXX]".data).map RawTok.pfx = ["FOO".data, "REQ".data]
    ∧ pfxs0.contains "FOO".data = false
    ∧ getSpanText (find_and_replace_patterns doc9 pfxs0).1 0 (SpanRef.run 0)
        ≠ some "[FOO-XXX][REQ-XXX]".data := by
  refine ⟨by decide, by decide, by decide⟩

/-- C9 amended: tokens with unrecognised prefixes are never collected (every
collected match carries a recognised prefix, hence is never numbered), and
any span in which no match was collected — in particular a span whose only
tokens have unrecognised prefixes — is left untouched verbatim by the
rewrite pass. -/
theorem claim_C9_unrecognised_untouched (doc : DocModel) (pfxs : List Str) :
    (∀ m ∈ collect_all_patterns doc pfxs, m.pfx ∈ pfxs)
    ∧ (∀ ri ref, (∀ m ∈ collect_all_patterns doc pfxs, ¬(m.region = ri ∧ m.ref = ref)) →
        getSpanText (find_and_replace_patterns doc pfxs).1 ri ref
          = getSpanText (allRegions doc) ri ref) := by
  refine ⟨fun m hm => pfx_mem_of_collect_all hm, fun ri ref h => ?_⟩
  rw [find_and_replace_patterns]
  exact process_frame _ _ _ _ h

/-- C9 witness: a document whose only tokens have unrecognised prefixes
collects nothing and its span is untouched. -/
theorem claim_C9_witness :
    getSpanText
        (find_and_replace_patterns ⟨[mkPara ["[FOO-XXX]".data, "hello".data]], [], []⟩ pfxs0).1
        0 (SpanRef.run 0)
      = getSpanText (allRegions ⟨[mkPara ["[FOO-XXX]".data, "hello".data]], [], []⟩)
        0 (SpanRef.run 0) :=
  (claim_C9_unrecognised_untouched ⟨[mkPara ["[FOO-XXX]".data, "hello".data]], [], []⟩ pfxs0).2
    0 (SpanRef.run 0) (by decide)

end Wordtool
